import Mathlib

/-!
Verification of the SageDB distributed key-value store (shallow embedding).

The embedding translates the JavaScript sources:
  * `src/fastdb.js`      — storage engine (WAL serialization, table, recovery)
  * `src/hash.js`        — consistent-hash ring (`buildRing`, `pickNode`)
  * `src/shard.js`       — shard HTTP handler and quorum `replicate`
  * `src/coordinator.js` — router proxy

Modelling conventions:
  * JavaScript dynamic values that flow through the store are modelled by
    `JVal` (JSON algebra; numbers are modelled as integers — no claim
    involves floating point).
  * Node `Buffer`s are `List Nat` of byte values; `Buffer.from(string)` is
    UTF-8 encoding and `buffer.toString()` is UTF-8 decoding, both modelled
    executably below.
  * A JavaScript exception is modelled by `Option`/`none` on the function
    that can throw.
  * Wall-clock time (`Date.now()`) is passed explicitly as a `Nat` argument.
-/

set_option maxRecDepth 8000

namespace SageDB

/-- JavaScript values stored by the engine: the JSON algebra.
`vStr` doubles as the raw-string case (JS does not distinguish a parsed
JSON string from a plain string).  Numbers are modelled as integers. -/
inductive JVal where
  | vNull
  | vBool (b : Bool)
  | vNum (n : Int)
  | vStr (s : String)
  | vArr (elems : List JVal)
  | vObj (fields : List (String × JVal))
deriving Repr

/-! ## UTF-8 byte model

`Buffer.from(s)` on a JS string yields its UTF-8 bytes; `buf.toString()`
decodes UTF-8.  Both are modelled executably on `List Nat`. -/

/-- UTF-8 encoding of one code point (model of what `Buffer.from` does per
character). -/
def utf8EncChar (n : Nat) : List Nat :=
  if n < 0x80 then [n]
  else if n < 0x800 then [0xC0 + n / 64, 0x80 + n % 64]
  else if n < 0x10000 then
    [0xE0 + n / 4096, 0x80 + (n / 64) % 64, 0x80 + n % 64]
  else
    [0xF0 + n / 262144, 0x80 + (n / 4096) % 64, 0x80 + (n / 64) % 64, 0x80 + n % 64]

/-- Strict UTF-8 decoding of one code point from the front of a byte list;
`none` models an invalid sequence. -/
def utf8DecChar : List Nat → Option (Nat × List Nat)
  | [] => none
  | b :: r =>
    if b < 0x80 then some (b, r)
    else if b < 0xC2 then none
    else if b < 0xE0 then
      match r with
      | b1 :: r1 =>
        if 0x80 ≤ b1 ∧ b1 < 0xC0 then some ((b - 0xC0) * 64 + (b1 - 0x80), r1) else none
      | _ => none
    else if b < 0xF0 then
      match r with
      | b1 :: b2 :: r2 =>
        if 0x80 ≤ b1 ∧ b1 < 0xC0 ∧ 0x80 ≤ b2 ∧ b2 < 0xC0 then
          let n := (b - 0xE0) * 4096 + (b1 - 0x80) * 64 + (b2 - 0x80)
          if 0x800 ≤ n ∧ ¬(0xD800 ≤ n ∧ n < 0xE000) then some (n, r2) else none
        else none
      | _ => none
    else if b < 0xF5 then
      match r with
      | b1 :: b2 :: b3 :: r3 =>
        if 0x80 ≤ b1 ∧ b1 < 0xC0 ∧ 0x80 ≤ b2 ∧ b2 < 0xC0 ∧ 0x80 ≤ b3 ∧ b3 < 0xC0 then
          let n := (b - 0xF0) * 262144 + (b1 - 0x80) * 4096 + (b2 - 0x80) * 64 + (b3 - 0x80)
          if 0x10000 ≤ n ∧ n < 0x110000 then some (n, r3) else none
        else none
      | _ => none
    else none

/-- Model of `Buffer.from(s)`: the UTF-8 bytes of a string. -/
def strBytes (s : String) : List Nat :=
  s.data.flatMap (fun c => utf8EncChar c.toNat)

/-- Decode a whole byte list into code points (fuel-indexed so the kernel
can evaluate it; `fuel ≥ length` always suffices). -/
def utf8DecList (fuel : Nat) (bs : List Nat) : Option (List Nat) :=
  match fuel, bs with
  | _, [] => some []
  | 0, _ :: _ => none
  | fuel + 1, bs =>
    match utf8DecChar bs with
    | some (n, rest) => (utf8DecList fuel rest).map (n :: ·)
    | none => none

/-- Model of `buffer.toString()`: UTF-8 decode.  On invalid UTF-8, Node substitutes
replacement characters; the model collapses that case to a single
replacement character (never exercised at valid inputs). -/
def bytesToStr (bs : List Nat) : String :=
  match utf8DecList (bs.length + 1) bs with
  | some cps => String.mk (cps.map Char.ofNat)
  | none => "�"

/-! ## JSON model

`JSON.stringify` / `JSON.parse` are JavaScript builtins used by
`src/fastdb.js` (value serialization, recovery re-parse) and
`src/shard.js` (request body parsing).  They are modelled executably:
numbers are modelled as integers (no claim involves floating point), and
the parser is fuel-indexed (the fuel supplied at top level always
suffices). -/

/-- Left brace character (written via its code point). -/
def lbrace : Char := Char.ofNat 123

/-- Right brace character (written via its code point). -/
def rbrace : Char := Char.ofNat 125

/-- Lower-case hex digit, as used by `JSON.stringify` in escapes. -/
def hexDigit (n : Nat) : Char :=
  if n < 10 then Char.ofNat (48 + n) else Char.ofNat (87 + n)

/-- One character of `JSON.stringify` string escaping. -/
def escChar (c : Char) : String :=
  if c = '"' then "\\\""
  else if c = '\\' then "\\\\"
  else if c = Char.ofNat 8 then "\\b"
  else if c = Char.ofNat 9 then "\\t"
  else if c = Char.ofNat 10 then "\\n"
  else if c = Char.ofNat 12 then "\\f"
  else if c = Char.ofNat 13 then "\\r"
  else if c.toNat < 32 then
    String.mk ['\\', 'u', '0', '0', hexDigit (c.toNat / 16), hexDigit (c.toNat % 16)]
  else String.singleton c

/-- A JSON string literal: quote, escaped body, quote. -/
def strQuote (s : String) : String :=
  "\"" ++ String.join (s.data.map escChar) ++ "\""

mutual

/-- Model of `JSON.stringify` (compact output: no added whitespace, the
default in the sources). -/
def jsonStringify : JVal → String
  | .vNull => "null"
  | .vBool true => "true"
  | .vBool false => "false"
  | .vNum n => toString n
  | .vStr s => strQuote s
  | .vArr xs => "[" ++ String.intercalate "," (stringifyElems xs) ++ "]"
  | .vObj fs =>
    String.singleton lbrace ++ String.intercalate "," (stringifyFields fs) ++
      String.singleton rbrace

/-- Stringify each array element. -/
def stringifyElems : List JVal → List String
  | [] => []
  | v :: vs => jsonStringify v :: stringifyElems vs

/-- Stringify each object field as `"key":value`. -/
def stringifyFields : List (String × JVal) → List String
  | [] => []
  | (k, v) :: fs => (strQuote k ++ ":" ++ jsonStringify v) :: stringifyFields fs

end

/-- JSON whitespace predicate. -/
def isWs (c : Char) : Bool :=
  c = ' ' || c = Char.ofNat 9 || c = Char.ofNat 10 || c = Char.ofNat 13

/-- Drop leading JSON whitespace. -/
def skipWs : List Char → List Char
  | [] => []
  | c :: r => if isWs c then skipWs r else c :: r

/-- Hex digit value. -/
def hexVal (c : Char) : Option Nat :=
  if '0' ≤ c ∧ c ≤ '9' then some (c.toNat - 48)
  else if 'a' ≤ c ∧ c ≤ 'f' then some (c.toNat - 87)
  else if 'A' ≤ c ∧ c ≤ 'F' then some (c.toNat - 55)
  else none

/-- Parse a JSON string body (after the opening quote), handling the JSON
escapes; returns the content and the remainder after the closing quote. -/
def pStringBody : List Char → Option (List Char × List Char)
  | [] => none
  | c :: r =>
    if c = '"' then some ([], r)
    else if c = '\\' then
      match r with
      | [] => none
      | e :: r2 =>
        if e = '"' then (pStringBody r2).map (fun p => ('"' :: p.1, p.2))
        else if e = '\\' then (pStringBody r2).map (fun p => ('\\' :: p.1, p.2))
        else if e = '/' then (pStringBody r2).map (fun p => ('/' :: p.1, p.2))
        else if e = 'b' then (pStringBody r2).map (fun p => (Char.ofNat 8 :: p.1, p.2))
        else if e = 'f' then (pStringBody r2).map (fun p => (Char.ofNat 12 :: p.1, p.2))
        else if e = 'n' then (pStringBody r2).map (fun p => (Char.ofNat 10 :: p.1, p.2))
        else if e = 'r' then (pStringBody r2).map (fun p => (Char.ofNat 13 :: p.1, p.2))
        else if e = 't' then (pStringBody r2).map (fun p => (Char.ofNat 9 :: p.1, p.2))
        else if e = 'u' then
          match r2 with
          | h1 :: h2 :: h3 :: h4 :: r3 =>
            match hexVal h1, hexVal h2, hexVal h3, hexVal h4 with
            | some a, some b, some c3, some d =>
              (pStringBody r3).map
                (fun p => (Char.ofNat (((a * 16 + b) * 16 + c3) * 16 + d) :: p.1, p.2))
            | _, _, _, _ => none
          | _ => none
        else none
    else if c.toNat < 32 then none
    else (pStringBody r).map (fun p => (c :: p.1, p.2))

/-- Take leading decimal digits. -/
def digitsTake : List Char → List Char × List Char
  | [] => ([], [])
  | c :: r =>
    if '0' ≤ c ∧ c ≤ '9' then
      let p := digitsTake r
      (c :: p.1, p.2)
    else ([], c :: r)

/-- Numeric value of a digit list. -/
def natOfDigits (ds : List Char) : Nat :=
  ds.foldl (fun a c => a * 10 + (c.toNat - 48)) 0

/-- Parse a JSON number.  Fractional and exponent forms are outside the
integer model and are rejected rather than approximated. -/
def pNum (cs : List Char) : Option (Int × List Char) :=
  let p := match cs with
    | '-' :: r => (true, r)
    | _ => (false, cs)
  match p.2 with
  | [] => none
  | c :: _ =>
    if '0' ≤ c ∧ c ≤ '9' then
      let d := digitsTake p.2
      if 1 < d.1.length ∧ d.1.headD '0' = '0' then none
      else
        match d.2 with
        | '.' :: _ => none
        | 'e' :: _ => none
        | 'E' :: _ => none
        | _ =>
          let v : Int := natOfDigits d.1
          some (if p.1 then -v else v, d.2)
    else none

mutual

/-- Parse one JSON value (fuel-indexed; the fuel passed by `jsonParse`
always suffices). -/
def pVal : Nat → List Char → Option (JVal × List Char)
  | 0, _ => none
  | fuel + 1, cs =>
    match skipWs cs with
    | [] => none
    | c :: r =>
      if c = 'n' then
        match r with
        | 'u' :: 'l' :: 'l' :: r2 => some (.vNull, r2)
        | _ => none
      else if c = 't' then
        match r with
        | 'r' :: 'u' :: 'e' :: r2 => some (.vBool true, r2)
        | _ => none
      else if c = 'f' then
        match r with
        | 'a' :: 'l' :: 's' :: 'e' :: r2 => some (.vBool false, r2)
        | _ => none
      else if c = '"' then
        (pStringBody r).map (fun p => (.vStr (String.mk p.1), p.2))
      else if c = '[' then
        match skipWs r with
        | ']' :: r2 => some (.vArr [], r2)
        | _ => (pElems fuel r).map (fun p => (.vArr p.1, p.2))
      else if c = lbrace then
        match skipWs r with
        | x :: r2 =>
          if x = rbrace then some (.vObj [], r2)
          else (pFields fuel r).map (fun p => (.vObj p.1, p.2))
        | [] => none
      else (pNum (c :: r)).map (fun p => (.vNum p.1, p.2))

/-- Parse one-or-more comma-separated array elements up to `]`. -/
def pElems : Nat → List Char → Option (List JVal × List Char)
  | 0, _ => none
  | fuel + 1, cs =>
    match pVal fuel cs with
    | none => none
    | some (v, rest) =>
      match skipWs rest with
      | ',' :: r2 => (pElems fuel r2).map (fun p => (v :: p.1, p.2))
      | ']' :: r2 => some ([v], r2)
      | _ => none

/-- Parse one-or-more comma-separated object fields up to the closing
brace. -/
def pFields : Nat → List Char → Option (List (String × JVal) × List Char)
  | 0, _ => none
  | fuel + 1, cs =>
    match skipWs cs with
    | [] => none
    | c :: r =>
      if c = '"' then
        match pStringBody r with
        | none => none
        | some (ks, rest) =>
          match skipWs rest with
          | ':' :: r2 =>
            match pVal fuel r2 with
            | none => none
            | some (v, rest2) =>
              match skipWs rest2 with
              | [] => none
              | x :: r3 =>
                if x = ',' then
                  (pFields fuel r3).map (fun p => ((String.mk ks, v) :: p.1, p.2))
                else if x = rbrace then some ([(String.mk ks, v)], r3)
                else none
          | _ => none
      else none

end

/-- Model of `JSON.parse`: parse one value, allow trailing whitespace,
require the whole input to be consumed; `none` models a thrown
`SyntaxError`. -/
def jsonParse (s : String) : Option JVal :=
  match pVal (2 * s.length + 2) s.data with
  | some (v, rest) => if skipWs rest = [] then some v else none
  | none => none

/-! ## Storage engine (`src/fastdb.js`)

`makeFastDB` closes over a `Map` (`memTable`), a WAL byte queue
(`walQueue`) and a `closed` flag.  The WAL file contents are the
concatenation of the flushed queue entries. -/

/-- The value serialization inside `serializeRecord` (fastdb.js:17):
`typeof value === 'object' ? JSON.stringify(value) : String(value)`.
`typeof` is `'object'` exactly for `null`, arrays and objects. -/
def serializeValue : JVal → String
  | .vNull => jsonStringify .vNull
  | .vArr xs => jsonStringify (.vArr xs)
  | .vObj fs => jsonStringify (.vObj fs)
  | .vStr s => s
  | .vNum n => toString n
  | .vBool b => if b then "true" else "false"

/-- Model of `Buffer.alloc(n)`: `n` zero bytes. -/
def bufAlloc (n : Nat) : List Nat := List.replicate n 0

/-- An in-bounds `Buffer` write (`writeUInt8`, `writeUInt32BE`,
`copy`): overwrite `bs.length` bytes starting at `off`. -/
def bufWrite (buf : List Nat) (off : Nat) (bs : List Nat) : List Nat :=
  buf.take off ++ bs ++ buf.drop (off + bs.length)

/-- Big-endian 32-bit encoding, as written by `writeUInt32BE`.  (The JS
method throws instead of wrapping above `2^32 - 1`; theorems that rely on
`be32` representing a length carry a `< 2^32` hypothesis.) -/
def be32 (n : Nat) : List Nat :=
  [n / 16777216 % 256, n / 65536 % 256, n / 256 % 256, n % 256]

/-- Model of `serializeRecord(op, key, value)` (fastdb.js:15-26), modelled with the
same imperative buffer writes. -/
def serializeRecord (op : String) (key : String) (value : JVal) : List Nat :=
  let keyBuf := strBytes key
  let valBuf := strBytes (serializeValue value)
  let buf0 := bufAlloc (1 + 4 + 4 + keyBuf.length + valBuf.length)
  let buf1 := bufWrite buf0 0 [if op = "put" then 1 else 2]
  let buf2 := bufWrite buf1 1 (be32 keyBuf.length)
  let buf3 := bufWrite buf2 5 (be32 valBuf.length)
  let buf4 := bufWrite buf3 9 keyBuf
  bufWrite buf4 (9 + keyBuf.length) valBuf

/-- A stored record: the value plus the wall-clock timestamp assigned at
apply time (fastdb.js:30). -/
structure Rec where
  value : JVal
  ts : Nat
deriving Repr

/-- The in-memory table: a JS `Map` as an insertion-ordered association
list. -/
abbrev Table := List (String × Rec)

/-- Membership test, `Map.prototype.has`-style membership. -/
def tblHas (t : Table) (k : String) : Bool := t.any (fun p => p.1 = k)

/-- Lookup, `Map.prototype.get` (`|| null` is the `Option`). -/
def tblGet (t : Table) (k : String) : Option Rec :=
  (t.find? (fun p => p.1 = k)).map (·.2)

/-- Insertion, `Map.prototype.set`: update in place if the key exists (keeping its
position), otherwise append. -/
def tblSet (t : Table) (k : String) (r : Rec) : Table :=
  if tblHas t k then t.map (fun p => if p.1 = k then (k, r) else p)
  else t ++ [(k, r)]

/-- Removal, `Map.prototype.delete`. -/
def tblDel (t : Table) (k : String) : Table := t.filter (fun p => ¬(p.1 = k))

/-- Model of `applyRecord(op, key, value)` (fastdb.js:28-34); `now` is the
`Date.now()` read. -/
def applyRecord (now : Nat) (op : String) (key : String) (value : JVal) (t : Table) : Table :=
  if op = "put" then tblSet t key ⟨value, now⟩
  else if op = "del" then tblDel t key
  else t

/-- Engine state: the closed-over `memTable`, `walQueue` and `closed`
flag of `makeFastDB`. -/
structure Engine where
  memTable : Table
  walQueue : List (List Nat)
  closed : Bool
deriving Repr

/-- A fresh engine before any operation (empty data directory). -/
def openEngine : Engine := ⟨[], [], false⟩

/-- Model of `put(key, value)` (fastdb.js:36-41); `none` models the thrown
`DB closed` error. -/
def put (e : Engine) (now : Nat) (key : String) (value : JVal) : Option Engine :=
  if e.closed then none
  else
    some { e with
      walQueue := e.walQueue ++ [serializeRecord "put" key value],
      memTable := applyRecord now "put" key value e.memTable }

/-- Model of `get(key)` (fastdb.js:43-45). -/
def get (e : Engine) (key : String) : Option Rec := tblGet e.memTable key

/-- Model of `del(key)` (fastdb.js:47-52): writes a record with empty value. -/
def del (e : Engine) (now : Nat) (key : String) : Option Engine :=
  if e.closed then none
  else
    some { e with
      walQueue := e.walQueue ++ [serializeRecord "del" key (.vStr "")],
      memTable := applyRecord now "del" key (.vStr "") e.memTable }

/-- The recovery re-parse of value bytes (fastdb.js:84-90): attempt
`JSON.parse`; keep the parse only when it is an object or array
(`typeof parsed === 'object' && parsed !== null`), else keep the raw
string. -/
def recoverValue (s : String) : JVal :=
  match jsonParse s with
  | some (.vArr xs) => .vArr xs
  | some (.vObj fs) => .vObj fs
  | some _ => .vStr s
  | none => .vStr s

/-- The WAL replay loop of `recover` (fastdb.js:74-94), consuming the
buffer from the front (the source walks a monotone `offset`; the two views
coincide).  `readUInt8`/`readUInt32BE` throw `ERR_OUT_OF_RANGE` when fewer
bytes remain than they read — modelled by `none`; `slice` clamps — modelled
by `take`/`drop`.  Fuel-indexed for kernel evaluation; the fuel supplied by
`recover` always suffices because each iteration consumes at least 9
bytes. -/
def recoverLoop (now : Nat) : Nat → List Nat → Table → Option Table
  | _, [], t => some t
  | 0, _ :: _, _ => none
  | fuel + 1, op :: b0 :: b1 :: b2 :: b3 :: c0 :: c1 :: c2 :: c3 :: r3, t =>
    let keyLen := ((b0 * 256 + b1) * 256 + b2) * 256 + b3
    let valLen := ((c0 * 256 + c1) * 256 + c2) * 256 + c3
    let key := bytesToStr (r3.take keyLen)
    let value := recoverValue (bytesToStr ((r3.drop keyLen).take valLen))
    recoverLoop now fuel ((r3.drop keyLen).drop valLen)
      (applyRecord now (if op = 1 then "put" else "del") key value t)
  | _ + 1, _ :: _, _ => none

/-- Model of `recover()` (fastdb.js:61-95).  `init` is the table left by the
snapshot branch (the parsed snapshot entries, or empty when the snapshot
file is absent or fails to parse — both swallowed by its `try`/`catch`);
`none` models an uncaught exception escaping the WAL loop, which aborts
`makeFastDB`. -/
def recover (init : Table) (walData : List Nat) (now : Nat) : Option Table :=
  recoverLoop now (walData.length + 1) walData init

/-- Composition the recovery applies to every live value: serialize to WAL
bytes, decode, best-effort JSON re-parse. -/
def roundTrip (v : JVal) : JVal := recoverValue (serializeValue v)

/-! ### Operation sequences -/

/-- One mutation submitted to an open engine; `put` carries the
`Date.now()` value at its apply. -/
inductive Op where
  | put (key : String) (value : JVal) (now : Nat)
  | del (key : String)
deriving Repr

/-- The key an operation touches. -/
def Op.key : Op → String
  | .put k _ _ => k
  | .del k => k

/-- Run one operation against the engine API. -/
def runOp (e : Engine) : Op → Option Engine
  | .put k v now => put e now k v
  | .del k => del e 0 k

/-- Run a sequence of operations against the engine API. -/
def runOps : Engine → List Op → Option Engine
  | e, [] => some e
  | e, o :: os =>
    match runOp e o with
    | some e2 => runOps e2 os
    | none => none

/-- The table effect of one operation. -/
def applyOp (t : Table) : Op → Table
  | .put k v now => tblSet t k ⟨v, now⟩
  | .del k => tblDel t k

/-- The table of the live process after a sequence of operations on an
initially empty engine. -/
def liveTable (ops : List Op) : Table := ops.foldl applyOp []

/-- The WAL record an operation enqueues. -/
def opRecordBytes : Op → List Nat
  | .put k v _ => serializeRecord "put" k v
  | .del k => serializeRecord "del" k (.vStr "")

/-- The flushed WAL contents for a sequence of operations: records in
order (the flush timer and `close()` preserve queue order). -/
def walBytes (ops : List Op) : List Nat := (ops.map opRecordBytes).flatten

/-! ## WAL record layout -/

/-- Big-endian 32-bit value of the first four bytes, as `readUInt32BE`
computes it (helper for stating decode facts). -/
def readBE32 : List Nat → Nat
  | a :: b :: c :: d :: _ => ((a * 256 + b) * 256 + c) * 256 + d
  | _ => 0

/-! ## C8: last write wins on a single key -/

/-- The shard GET reply status (shard.js:81-87): `if (!v) return 404`,
else 200 with the record. -/
def getReplyStatus (r : Option Rec) : Nat :=
  match r with
  | some _ => 200
  | none => 404

/-- Refinement side of C8, following the claim text: the record a get
should observe is the value of the last applied mutation, none after a
trailing delete or an empty history. -/
def lastWriteWinsSpec (ops : List Op) : Option Rec :=
  match ops.getLast? with
  | some (.put _ v t) => some ⟨v, t⟩
  | some (.del _) => none
  | none => none

/-! ## Consistent-hash ring (`src/hash.js`)

`buildRing` hashes `node + '#' + i` with SHA-1 and takes the first four
digest bytes big-endian; `pickNode` hashes the key the same way and
binary-searches the sorted ring.  SHA-1 is modelled concretely below
(on `Nat`, word arithmetic mod `2^32`). -/

/-- Left-rotate a 32-bit word by `s` bits. -/
def rotl32 (s x : Nat) : Nat :=
  ((x <<< s) % 4294967296) ||| (x >>> (32 - s))

/-- Big-endian 64-bit length field of SHA-1 padding. -/
def be64 (n : Nat) : List Nat :=
  [n / 72057594037927936 % 256, n / 281474976710656 % 256, n / 1099511627776 % 256,
   n / 4294967296 % 256, n / 16777216 % 256, n / 65536 % 256, n / 256 % 256, n % 256]

/-- SHA-1 message padding: `0x80`, zeros to 56 mod 64, 8-byte bit length. -/
def sha1Pad (msg : List Nat) : List Nat :=
  msg ++ [128] ++ List.replicate ((120 - ((msg.length + 1) % 64)) % 64) 0 ++
    be64 (8 * msg.length)

/-- Split into 64-byte chunks (fuel-indexed; the supplied fuel always
suffices). -/
def chunks64 : Nat → List Nat → List (List Nat)
  | _, [] => []
  | 0, _ :: _ => []
  | fuel + 1, l => l.take 64 :: chunks64 fuel (l.drop 64)

/-- Group bytes into big-endian 32-bit words. -/
def words32 : Nat → List Nat → List Nat
  | _, [] => []
  | 0, _ :: _ => []
  | fuel + 1, a :: b :: c :: d :: r => (((a * 256 + b) * 256 + c) * 256 + d) :: words32 fuel r
  | _ + 1, _ => []

/-- Extend 16 message words to the 80 SHA-1 schedule words. -/
def sha1Extend (ws : List Nat) : List Nat :=
  (List.range 80).foldl
    (fun acc i =>
      if i < 16 then acc ++ [ws.getD i 0]
      else acc ++ [rotl32 1 ((acc.getD (i - 3) 0) ^^^ (acc.getD (i - 8) 0) ^^^
        (acc.getD (i - 14) 0) ^^^ (acc.getD (i - 16) 0))])
    []

/-- One SHA-1 block compression. -/
def sha1Compress (h : Nat × Nat × Nat × Nat × Nat) (block : List Nat) :
    Nat × Nat × Nat × Nat × Nat :=
  let ws := sha1Extend (words32 16 block)
  let s := (List.range 80).foldl
    (fun (st : Nat × Nat × Nat × Nat × Nat) i =>
      let fk : Nat × Nat :=
        if i < 20 then
          ((st.2.1 &&& st.2.2.1) ||| ((st.2.1 ^^^ 4294967295) &&& st.2.2.2.1), 1518500249)
        else if i < 40 then (st.2.1 ^^^ st.2.2.1 ^^^ st.2.2.2.1, 1859775393)
        else if i < 60 then
          ((st.2.1 &&& st.2.2.1) ||| (st.2.1 &&& st.2.2.2.1) ||| (st.2.2.1 &&& st.2.2.2.1),
            2400959708)
        else (st.2.1 ^^^ st.2.2.1 ^^^ st.2.2.2.1, 3395469782)
      ((rotl32 5 st.1 + fk.1 + st.2.2.2.2 + fk.2 + ws.getD i 0) % 4294967296,
        st.1, rotl32 30 st.2.1, st.2.2.1, st.2.2.2.1))
    h
  ((h.1 + s.1) % 4294967296, (h.2.1 + s.2.1) % 4294967296,
    (h.2.2.1 + s.2.2.1) % 4294967296, (h.2.2.2.1 + s.2.2.2.1) % 4294967296,
    (h.2.2.2.2 + s.2.2.2.2) % 4294967296)

/-- The five 32-bit words of the SHA-1 digest of a byte sequence. -/
def sha1Words (msg : List Nat) : List Nat :=
  let padded := sha1Pad msg
  let s := (chunks64 padded.length padded).foldl sha1Compress
    (1732584193, 4023233417, 2562383102, 271733878, 3285377520)
  [s.1, s.2.1, s.2.2.1, s.2.2.2.1, s.2.2.2.2]

/-- Model of `crypto.createHash('sha1').update(s).digest().readUInt32BE(0)`: the
first four digest bytes as a big-endian u32 — exactly the first digest
word. -/
def sha1Word0 (s : String) : Nat := (sha1Words (strBytes s)).headD 0

/-- One ring entry (hash.js:14). -/
structure RingEntry where
  hash : Nat
  node : String
deriving Repr

/-- Virtual-node position: SHA-1 of `node + '#' + i` (hash.js:12-13). -/
def vnodeHash (n : String) (i : Nat) : Nat := sha1Word0 (n ++ "#" ++ toString i)

/-- Model of `buildRing(nodes, vnodes)` (hash.js:8-19): emit `vnodes` entries per
node, then sort ascending by hash (`Array.prototype.sort` is stable and
the comparator is `a.hash - b.hash`, hence `mergeSort` by `≤`). -/
def buildRing (nodes : List String) (vnodes : Nat) : List RingEntry :=
  (nodes.flatMap (fun n => (List.range vnodes).map (fun i => ⟨vnodeHash n i, n⟩))).mergeSort
    (fun a b => a.hash ≤ b.hash)

/-- Key position (hash.js:22-23): SHA-1 of `String(key)`. -/
def keyHash (key : String) : Nat := sha1Word0 key

/-- Access `ring[i].hash` (in-bounds in every reachable state of the search; the
out-of-bounds default is never exercised there). -/
def ringGetHash (ring : List RingEntry) (i : Nat) : Nat :=
  ((ring.get? i).map (·.hash)).getD 0

/-- The `while (lo <= hi)` binary search of `pickNode` (hash.js:24-28).
`(lo + hi) >>> 1` equals floor division by two for the reachable
(nonnegative, `< 2^31`) index range. -/
def bsearchLoop (ring : List RingEntry) (target : Nat) (lo hi : Int) : Int :=
  if _h : lo ≤ hi then
    let mid : Int := (lo + hi) / 2
    if ringGetHash ring mid.toNat < target then bsearchLoop ring target (mid + 1) hi
    else bsearchLoop ring target lo (mid - 1)
  else lo
termination_by (hi + 1 - lo).toNat
decreasing_by
  · omega
  · omega

/-- Model of `pickNode(ring, key)` (hash.js:21-30): the found entry, or entry 0 as
the wrap-around (`ring[lo] || ring[0]`); `none` models the `TypeError` on
an empty ring. -/
def pickNode (ring : List RingEntry) (key : String) : Option String :=
  let lo := bsearchLoop ring (keyHash key) 0 ((ring.length : Int) - 1)
  match ring.get? lo.toNat with
  | some e => some e.node
  | none => (ring.get? 0).map (·.node)

/-- The specification-side pick: the first (and, in a sorted ring,
smallest-position) entry with position ≥ target, wrapping to entry 0. -/
def pickSpec (ring : List RingEntry) (target : Nat) : Option String :=
  match ring.find? (fun e => target ≤ e.hash) with
  | some e => some e.node
  | none => ring.head?.map (·.node)

/-! ## Quorum replication (`src/shard.js:49-64`)

`replicate` creates one promise per replica
(`forwardWrite(...).then(() => acks++).catch(() => {})`), then busy-polls:

```
while (acks < Math.min(quorumSize, REPLICAS.length + 1)) {
    await new Promise(r => setTimeout(r, 1));
    if (promises.every(p => p.status === 'fulfilled' || p.status === 'rejected')) break;
}
if (acks >= quorumSize) ac.abort();
await Promise.allSettled(promises);
return { acks, quorum: quorumSize, ok: acks >= quorumSize };
```

Model: the environment `env` lists, per replica, `some t` when that
forward's `.then(() => acks++)` has run by poll round `t` (a 2xx reply),
and `none` when the forward never acknowledges (non-2xx, thrown fetch, or
a hang — all swallowed by `.catch(() => {})`).  Time is the poll-round
counter; the abort on quorum is modelled as instantaneous, so the final
`acks` re-read equals the count at loop exit.  The fuel bounds the number
of poll rounds; `none` means the loop is still spinning after `fuel`
rounds, so `∀ fuel, … = none` expresses non-termination. -/

/-- A replication outcome: the body of the shard's reply. -/
structure ReplResult where
  acks : Nat
  quorum : Nat
  ok : Bool
deriving Repr, DecidableEq

/-- The `acks` counter at poll round `t`: 1 (self) plus the forwards fulfilled
strictly before round `t` (no callback can run before the first
`await`). -/
def acksAt (env : List (Option Nat)) (t : Nat) : Nat :=
  1 + env.countP (fun o =>
    match o with
    | some ti => ti < t
    | none => false)

/-- The `p.status` property access on a JS `Promise`: Promise instances
expose no `status` own-property (that field belongs to
`Promise.allSettled` *result* objects), so the access yields
`undefined`. -/
def promiseStatusField : Option String := none

/-- Model of `promises.every(p => p.status === 'fulfilled' || p.status ===
'rejected')`, with `p.status` as above. -/
def allSettledCheck (replicaCount : Nat) : Bool :=
  (List.replicate replicaCount ()).all
    (fun _ => promiseStatusField == some "fulfilled" ||
      promiseStatusField == some "rejected")

/-- The busy-poll loop of `replicate` (shard.js:57-63): check the quorum
condition, sleep one round, check the (broken) all-settled break, repeat;
on exit, abort-if-quorum (instantaneous in the model) plus
`Promise.allSettled`, then return the reply object. -/
def replicateLoop (env : List (Option Nat)) (q : Nat) : Nat → Nat → Option ReplResult
  | _, 0 => none
  | t, fuel + 1 =>
    if acksAt env t < min q (env.length + 1) then
      if allSettledCheck env.length then
        some ⟨acksAt env (t + 1), q, decide (q ≤ acksAt env (t + 1))⟩
      else replicateLoop env q (t + 1) fuel
    else some ⟨acksAt env t, q, decide (q ≤ acksAt env t)⟩

/-- Model of `replicate(method, key, value)` (shard.js:49-64).  The
`if (!REPLICAS.length)` early return replies `{acks: 1, quorum: 1, ok:
true}` whatever the configured quorum is. -/
def replicate (env : List (Option Nat)) (q : Nat) (fuel : Nat) : Option ReplResult :=
  if env.length = 0 then some ⟨1, 1, true⟩
  else replicateLoop env q 0 fuel

/-- The originating PUT/DELETE reply (shard.js:108, 117):
`json(res, repl.ok ? 200 : 500, { ok, acks, quorum })`. -/
def putReply (r : ReplResult) : Nat × ReplResult :=
  (if r.ok then 200 else 500, r)

/-! ## Shard PUT handler (`src/shard.js:89-111`) and router proxy
(`src/coordinator.js:26-35`) -/

/-- Prefix test on character lists. -/
def isPrefixList : List Char → List Char → Bool
  | [], _ => true
  | _ :: _, [] => false
  | a :: asTail, b :: bs => a = b && isPrefixList asTail bs

/-- Substring test (`String.prototype.includes`). -/
def hasSubstr : List Char → List Char → Bool
  | [], pat => pat.isEmpty
  | c :: rest, pat => isPrefixList pat (c :: rest) || hasSubstr rest pat

/-- Model of `contentType && contentType.includes('application/json')`
(shard.js:95-96); an absent header is falsy. -/
def ctIncludesJson (ct : Option String) : Bool :=
  match ct with
  | some c => hasSubstr c.data "application/json".data
  | none => false

/-- The value-determination step of the shard PUT handler
(shard.js:93-102): the raw body string, or `JSON.parse(body)` when the
content-type includes `application/json`; `.error` is the 400
`Invalid JSON` reply. -/
def shardPutValue (ct : Option String) (body : String) : Except Unit JVal :=
  if ctIncludesJson ct then
    match jsonParse body with
    | some v => .ok v
    | none => .error ()
  else .ok (.vStr body)

/-- The shard PUT handler up to the engine write (shard.js:89-110): the
400 branch replies before `DB.put` runs, leaving the engine untouched;
otherwise the parsed value is stored via `put`. -/
def handlePutCore (e : Engine) (now : Nat) (key : String) (ct : Option String)
    (body : String) : Except (Nat × Engine) (JVal × Option Engine) :=
  match shardPutValue ct body with
  | .error _ => .error (400, e)
  | .ok v => .ok (v, put e now key v)

/-- The headers the router's `proxy` sends (coordinator.js:30): the
content-type is the constant `'text/plain'`; the client's header is never
consulted. -/
def proxyContentType (_clientCT : Option String) : String := "text/plain"

/-! ## C2: recovery vs. the live table -/

/-- The serialized value string of an operation's WAL record. -/
def opValStr : Op → String
  | .put _ v _ => serializeValue v
  | .del _ => serializeValue (.vStr "")

/-- Both byte lengths of an operation's record are in `writeUInt32BE`
range (otherwise the live `put`/`del` itself would have thrown). -/
def opSizesOk (o : Op) : Prop :=
  (strBytes o.key).length < 2 ^ 32 ∧ (strBytes (opValStr o)).length < 2 ^ 32

/-- The table effect of replaying one operation's WAL record at recovery
time `t0`. -/
def replayOp (t0 : Nat) (t : Table) : Op → Table
  | .put k v _ => tblSet t k ⟨roundTrip v, t0⟩
  | .del k => tblDel t k

/-- Common shape of the live apply and the replay apply: put sets some
record, delete removes. -/
def opFold (recOf : JVal → Nat → Rec) (t : Table) : Op → Table
  | .put k v now => tblSet t k (recOf v now)
  | .del k => tblDel t k

/-- Round trip, single character: decoding the UTF-8 encoding of a valid
code point returns that code point and the untouched remainder. -/
theorem utf8DecChar_encChar (n : Nat) (hn : Nat.isValidChar n) (rest : List Nat) :
    utf8DecChar (utf8EncChar n ++ rest) = some (n, rest) := by
  have hn' : n < 0xD800 ∨ (0xDFFF < n ∧ n < 0x110000) := hn
  have hmax : n < 0x110000 := by omega
  have hsur : ¬(0xD800 ≤ n ∧ n < 0xE000) := by omega
  by_cases ha : n < 0x80
  · simp only [utf8EncChar, if_pos ha, List.cons_append, List.nil_append, utf8DecChar]
  by_cases hb : n < 0x800
  · have hd : ¬(0xC0 + n / 64 < 0x80) := by omega
    have he : ¬(0xC0 + n / 64 < 0xC2) := by omega
    have hf : 0xC0 + n / 64 < 0xE0 := by omega
    have hg : 0x80 ≤ 0x80 + n % 64 ∧ 0x80 + n % 64 < 0xC0 := by omega
    simp only [utf8EncChar, if_neg ha, if_pos hb, List.cons_append, List.nil_append,
      utf8DecChar, if_neg hd, if_neg he, if_pos hf, if_pos hg]
    congr 2
    omega
  by_cases hc : n < 0x10000
  · have hd : ¬(0xE0 + n / 4096 < 0x80) := by omega
    have he : ¬(0xE0 + n / 4096 < 0xC2) := by omega
    have hf : ¬(0xE0 + n / 4096 < 0xE0) := by omega
    have hg : 0xE0 + n / 4096 < 0xF0 := by omega
    have hh : 0x80 ≤ 0x80 + n / 64 % 64 ∧ 0x80 + n / 64 % 64 < 0xC0 ∧
        0x80 ≤ 0x80 + n % 64 ∧ 0x80 + n % 64 < 0xC0 := by omega
    have hval : (0xE0 + n / 4096 - 0xE0) * 4096 + (0x80 + n / 64 % 64 - 0x80) * 64 +
        (0x80 + n % 64 - 0x80) = n := by omega
    simp only [utf8EncChar, if_neg ha, if_neg hb, if_pos hc, List.cons_append,
      List.nil_append, utf8DecChar, if_neg hd, if_neg he, if_neg hf, if_pos hg, if_pos hh,
      hval]
    have hi : 0x800 ≤ n ∧ ¬(0xD800 ≤ n ∧ n < 0xE000) := ⟨by omega, hsur⟩
    simp only [if_pos hi]
  · have hd : ¬(0xF0 + n / 262144 < 0x80) := by omega
    have he : ¬(0xF0 + n / 262144 < 0xC2) := by omega
    have hf : ¬(0xF0 + n / 262144 < 0xE0) := by omega
    have hg : ¬(0xF0 + n / 262144 < 0xF0) := by omega
    have hg2 : 0xF0 + n / 262144 < 0xF5 := by omega
    have hh : 0x80 ≤ 0x80 + n / 4096 % 64 ∧ 0x80 + n / 4096 % 64 < 0xC0 ∧
        0x80 ≤ 0x80 + n / 64 % 64 ∧ 0x80 + n / 64 % 64 < 0xC0 ∧
        0x80 ≤ 0x80 + n % 64 ∧ 0x80 + n % 64 < 0xC0 := by omega
    have hval : (0xF0 + n / 262144 - 0xF0) * 262144 + (0x80 + n / 4096 % 64 - 0x80) * 4096 +
        (0x80 + n / 64 % 64 - 0x80) * 64 + (0x80 + n % 64 - 0x80) = n := by omega
    simp only [utf8EncChar, if_neg ha, if_neg hb, if_neg hc, List.cons_append,
      List.nil_append, utf8DecChar, if_neg hd, if_neg he, if_neg hf, if_neg hg, if_pos hg2,
      if_pos hh, hval]
    have hi : 0x10000 ≤ n ∧ n < 0x110000 := ⟨by omega, hmax⟩
    simp only [if_pos hi]

/-- Every character encodes to at least one byte. -/
theorem utf8EncChar_ne_nil (n : Nat) : utf8EncChar n ≠ [] := by
  unfold utf8EncChar
  split
  · simp
  split
  · simp
  split
  · simp
  · simp

/-- Decoding the concatenated encodings of a character list recovers the
code points, for any sufficient fuel. -/
theorem utf8DecList_enc (cs : List Char) (rest0 : List Nat) (fuel : Nat)
    (hfuel : cs.length < fuel) (h0 : rest0 = []) :
    utf8DecList fuel (cs.flatMap (fun c => utf8EncChar c.toNat) ++ rest0) =
      some (cs.map Char.toNat) := by
  subst h0
  induction cs generalizing fuel with
  | nil => simp [utf8DecList]
  | cons c cs ih =>
    match fuel, hfuel with
    | fuel + 1, hfuel =>
      have hne : utf8EncChar c.toNat ++ (cs.flatMap (fun c => utf8EncChar c.toNat) ++ []) ≠ [] := by
        have := utf8EncChar_ne_nil c.toNat
        cases h : utf8EncChar c.toNat with
        | nil => exact absurd h this
        | cons a l => simp [h]
      have hvalid : Nat.isValidChar c.toNat := c.valid
      have hdec := utf8DecChar_encChar c.toNat hvalid (cs.flatMap (fun c => utf8EncChar c.toNat) ++ [])
      have hstep : utf8DecList (fuel + 1)
          ((c :: cs).flatMap (fun c => utf8EncChar c.toNat) ++ []) =
          (utf8DecList fuel (cs.flatMap (fun c => utf8EncChar c.toNat) ++ [])).map
            (c.toNat :: ·) := by
        rw [List.flatMap_cons, List.append_assoc]
        rw [utf8DecList]
        · rw [hdec]
        · cases h : utf8EncChar c.toNat ++ (cs.flatMap (fun c => utf8EncChar c.toNat) ++ []) with
          | nil => exact absurd h hne
          | cons a l => simp
      rw [hstep, ih fuel (by simpa using hfuel)]
      simp

/-- UTF-8 round trip on strings: `buffer.toString()` of `Buffer.from(s)`
is `s` itself. -/
theorem bytesToStr_strBytes (s : String) : bytesToStr (strBytes s) = s := by
  have hlen : s.data.length ≤ (strBytes s).length := by
    unfold strBytes
    clear * -
    induction s.data with
    | nil => simp
    | cons c cs ih =>
      have := utf8EncChar_ne_nil c.toNat
      have hpos : 0 < (utf8EncChar c.toNat).length := List.length_pos.mpr this
      simp only [List.flatMap_cons, List.length_append, List.length_cons]
      omega
  unfold bytesToStr
  have hdec := utf8DecList_enc s.data [] ((strBytes s).length + 1) (by omega) rfl
  simp only [List.append_nil] at hdec
  unfold strBytes
  rw [show s.data.flatMap (fun c => utf8EncChar c.toNat) = strBytes s from rfl] at *
  rw [hdec]
  simp only [List.map_map]
  have : (Char.ofNat ∘ Char.toNat) = id := by
    funext c
    exact Char.ofNat_toNat c
  rw [this, List.map_id]

theorem be32_length (n : Nat) : (be32 n).length = 4 := rfl

/-- Encoding `be32` faithfully encodes values below `2^32`. -/
theorem readBE32_be32 (n : Nat) (h : n < 2 ^ 32) : readBE32 (be32 n) = n := by
  show ((n / 16777216 % 256 * 256 + n / 65536 % 256) * 256 + n / 256 % 256) * 256 + n % 256 = n
  omega

theorem bufWrite_zero (buf bs : List Nat) :
    bufWrite buf 0 bs = bs ++ buf.drop bs.length := by
  unfold bufWrite
  simp

theorem bufWrite_append_left (pre xs bs : List Nat) (off off' : Nat)
    (h : off = pre.length + off') :
    bufWrite (pre ++ xs) off bs = pre ++ bufWrite xs off' bs := by
  subst h
  unfold bufWrite
  rw [List.take_append, List.drop_append_eq_append_drop]
  have h1 : pre.length + off' + bs.length - pre.length = off' + bs.length := by omega
  have h2 : pre.drop (pre.length + off' + bs.length) = [] := by
    apply List.drop_eq_nil_of_le
    omega
  rw [h1, h2]
  simp [List.append_assoc]

theorem drop_replicate_append (n a : Nat) (l : List Nat) :
    (List.replicate n a ++ l).drop n = l := by
  have h := List.drop_left (List.replicate n a) l
  rwa [List.length_replicate] at h

theorem drop_replicate_self (n a : Nat) :
    (List.replicate n a).drop n = [] := by
  have h := drop_replicate_append n a []
  rwa [List.append_nil] at h

/-- Normal form of `serializeRecord`: op byte, big-endian key length,
big-endian value length, key bytes, value bytes. -/
theorem serializeRecord_eq (op key : String) (value : JVal) :
    serializeRecord op key value =
      (if op = "put" then 1 else 2) ::
        (be32 (strBytes key).length ++
          (be32 (strBytes (serializeValue value)).length ++
            (strBytes key ++ strBytes (serializeValue value)))) := by
  have halloc : bufAlloc (1 + 4 + 4 + (strBytes key).length +
      (strBytes (serializeValue value)).length) =
      [0] ++ ([0, 0, 0, 0] ++ ([0, 0, 0, 0] ++
        (List.replicate (strBytes key).length 0 ++
          List.replicate (strBytes (serializeValue value)).length 0))) := by
    show List.replicate _ 0 = _
    rw [show 1 + 4 + 4 + (strBytes key).length + (strBytes (serializeValue value)).length =
      1 + (4 + (4 + ((strBytes key).length + (strBytes (serializeValue value)).length)))
      by omega]
    rw [List.replicate_add, List.replicate_add, List.replicate_add, List.replicate_add]
    rfl
  have s1 : bufWrite ([0] ++ ([0, 0, 0, 0] ++ ([0, 0, 0, 0] ++
      (List.replicate (strBytes key).length 0 ++
        List.replicate (strBytes (serializeValue value)).length 0)))) 0
      [if op = "put" then 1 else 2] =
      [if op = "put" then 1 else 2] ++ ([0, 0, 0, 0] ++ ([0, 0, 0, 0] ++
        (List.replicate (strBytes key).length 0 ++
          List.replicate (strBytes (serializeValue value)).length 0))) := by
    rw [bufWrite_zero]
    simp
  have s2 : bufWrite ([if op = "put" then 1 else 2] ++ ([0, 0, 0, 0] ++ ([0, 0, 0, 0] ++
      (List.replicate (strBytes key).length 0 ++
        List.replicate (strBytes (serializeValue value)).length 0)))) 1
      (be32 (strBytes key).length) =
      [if op = "put" then 1 else 2] ++ (be32 (strBytes key).length ++ ([0, 0, 0, 0] ++
        (List.replicate (strBytes key).length 0 ++
          List.replicate (strBytes (serializeValue value)).length 0))) := by
    rw [bufWrite_append_left [if op = "put" then 1 else 2] _ _ 1 0 rfl]
    rw [bufWrite_zero]
    simp [be32]
  have s3 : bufWrite ([if op = "put" then 1 else 2] ++ (be32 (strBytes key).length ++
      ([0, 0, 0, 0] ++ (List.replicate (strBytes key).length 0 ++
        List.replicate (strBytes (serializeValue value)).length 0)))) 5
      (be32 (strBytes (serializeValue value)).length) =
      [if op = "put" then 1 else 2] ++ (be32 (strBytes key).length ++
        (be32 (strBytes (serializeValue value)).length ++
          (List.replicate (strBytes key).length 0 ++
            List.replicate (strBytes (serializeValue value)).length 0))) := by
    rw [bufWrite_append_left [if op = "put" then 1 else 2] _ _ 5 4 rfl]
    rw [bufWrite_append_left (be32 (strBytes key).length) _ _ 4 0 rfl]
    rw [bufWrite_zero]
    simp [be32]
  have s4 : bufWrite ([if op = "put" then 1 else 2] ++ (be32 (strBytes key).length ++
      (be32 (strBytes (serializeValue value)).length ++
        (List.replicate (strBytes key).length 0 ++
          List.replicate (strBytes (serializeValue value)).length 0)))) 9
      (strBytes key) =
      [if op = "put" then 1 else 2] ++ (be32 (strBytes key).length ++
        (be32 (strBytes (serializeValue value)).length ++
          (strBytes key ++ List.replicate (strBytes (serializeValue value)).length 0))) := by
    rw [bufWrite_append_left [if op = "put" then 1 else 2] _ _ 9 8 rfl]
    rw [bufWrite_append_left (be32 (strBytes key).length) _ _ 8 4 rfl]
    rw [bufWrite_append_left (be32 (strBytes (serializeValue value)).length) _ _ 4 0 rfl]
    rw [bufWrite_zero]
    rw [drop_replicate_append]
  have s5 : bufWrite ([if op = "put" then 1 else 2] ++ (be32 (strBytes key).length ++
      (be32 (strBytes (serializeValue value)).length ++
        (strBytes key ++ List.replicate (strBytes (serializeValue value)).length 0))))
      (9 + (strBytes key).length) (strBytes (serializeValue value)) =
      [if op = "put" then 1 else 2] ++ (be32 (strBytes key).length ++
        (be32 (strBytes (serializeValue value)).length ++
          (strBytes key ++ strBytes (serializeValue value)))) := by
    rw [bufWrite_append_left [if op = "put" then 1 else 2] _ _
      (9 + (strBytes key).length) (8 + (strBytes key).length) (by simp; omega)]
    rw [bufWrite_append_left (be32 (strBytes key).length) _ _
      (8 + (strBytes key).length) (4 + (strBytes key).length) (by simp [be32]; omega)]
    rw [bufWrite_append_left (be32 (strBytes (serializeValue value)).length) _ _
      (4 + (strBytes key).length) ((strBytes key).length) (by simp [be32])]
    rw [bufWrite_append_left (strBytes key) _ _ ((strBytes key).length) 0 (by simp)]
    rw [bufWrite_zero]
    rw [drop_replicate_self]
    simp
  show bufWrite (bufWrite (bufWrite (bufWrite (bufWrite
      (bufAlloc (1 + 4 + 4 + (strBytes key).length +
        (strBytes (serializeValue value)).length)) 0
      [if op = "put" then 1 else 2]) 1 (be32 (strBytes key).length)) 5
      (be32 (strBytes (serializeValue value)).length)) 9 (strBytes key))
      (9 + (strBytes key).length) (strBytes (serializeValue value)) = _
  rw [halloc, s1, s2, s3, s4, s5]
  rfl

/-- C9: For every `put(key, value)`, the serialized WAL record is exactly
one op byte (1 for PUT, 2 for DELETE), the key length as big-endian u32,
the value length as big-endian u32, the UTF-8 key bytes, then the value
bytes (UTF-8 of the scalar string, or the JSON serialization of a
structured value); and for every `del(key)` the record has op byte 2 and
vlen = 0 (empty value bytes).  The `< 2^32` hypotheses are the range in
which `writeUInt32BE` represents the length faithfully (it throws above
it), witnessed by the `readBE32` decode conjuncts. -/
theorem wal_record_layout (key : String) (v : JVal)
    (hk : (strBytes key).length < 2 ^ 32)
    (hv : (strBytes (serializeValue v)).length < 2 ^ 32) :
    serializeRecord "put" key v =
      [1] ++ be32 (strBytes key).length ++ be32 (strBytes (serializeValue v)).length ++
        strBytes key ++ strBytes (serializeValue v) ∧
    serializeRecord "del" key (.vStr "") =
      [2] ++ be32 (strBytes key).length ++ be32 0 ++ strBytes key ∧
    readBE32 (be32 (strBytes key).length) = (strBytes key).length ∧
    readBE32 (be32 (strBytes (serializeValue v)).length) =
      (strBytes (serializeValue v)).length ∧
    (∀ s, serializeValue (.vStr s) = s) ∧
    (∀ xs, serializeValue (.vArr xs) = jsonStringify (.vArr xs)) ∧
    (∀ fs, serializeValue (.vObj fs) = jsonStringify (.vObj fs)) := by
  refine ⟨?_, ?_, readBE32_be32 _ hk, readBE32_be32 _ hv, fun s => rfl, fun xs => rfl,
    fun fs => rfl⟩
  · rw [serializeRecord_eq]
    simp
  · rw [serializeRecord_eq]
    have h1 : serializeValue (JVal.vStr "") = "" := rfl
    have h2 : strBytes "" = [] := rfl
    simp [h1, h2]

/-- Witness for `wal_record_layout` at `key = "k"`, `v = "x"`. -/
theorem wal_record_layout_witness :
    ((strBytes "k").length < 2 ^ 32 ∧ (strBytes (serializeValue (JVal.vStr "x"))).length < 2 ^ 32) ∧
    serializeRecord "put" "k" (JVal.vStr "x") =
      [1] ++ be32 (strBytes "k").length ++
        be32 (strBytes (serializeValue (JVal.vStr "x"))).length ++
        strBytes "k" ++ strBytes (serializeValue (JVal.vStr "x")) :=
  ⟨⟨by decide, by decide⟩, (wal_record_layout "k" (JVal.vStr "x") (by decide) (by decide)).1⟩

/-! ## Table lookup lemmas -/

theorem tblGet_cons (p : String × Rec) (t : Table) (k : String) :
    tblGet (p :: t) k = if p.1 = k then some p.2 else tblGet t k := by
  by_cases h : p.1 = k
  · simp [tblGet, List.find?_cons_of_pos, h]
  · simp [tblGet, List.find?_cons_of_neg, h]

theorem tblGet_map_update_self (t : Table) (k : String) (r : Rec)
    (hh : tblHas t k = true) :
    tblGet (t.map (fun q => if q.1 = k then (k, r) else q)) k = some r := by
  induction t with
  | nil => simp [tblHas] at hh
  | cons p t ih =>
    by_cases hpk : p.1 = k
    · rw [List.map_cons, if_pos hpk, tblGet_cons]
      simp
    · rw [List.map_cons, if_neg hpk, tblGet_cons, if_neg hpk]
      apply ih
      simpa [tblHas, hpk] using hh

theorem tblGet_map_update_other (t : Table) (k k2 : String) (r : Rec)
    (h : k2 ≠ k) :
    tblGet (t.map (fun q => if q.1 = k2 then (k2, r) else q)) k = tblGet t k := by
  induction t with
  | nil => rfl
  | cons p t ih =>
    by_cases hpk2 : p.1 = k2
    · rw [List.map_cons, if_pos hpk2, tblGet_cons, tblGet_cons]
      have hpk : ¬(p.1 = k) := by
        rw [hpk2]
        exact h
      rw [if_neg h, if_neg hpk]
      exact ih
    · rw [List.map_cons, if_neg hpk2, tblGet_cons, tblGet_cons]
      by_cases hpk : p.1 = k
      · rw [if_pos hpk, if_pos hpk]
      · rw [if_neg hpk, if_neg hpk]
        exact ih

theorem tblGet_append_single_self (t : Table) (k : String) (r : Rec)
    (hh : tblHas t k = false) :
    tblGet (t ++ [(k, r)]) k = some r := by
  induction t with
  | nil => simp [tblGet, List.find?]
  | cons p t ih =>
    have hpk : ¬(p.1 = k) := by
      intro hc
      simp [tblHas, hc] at hh
    rw [List.cons_append, tblGet_cons, if_neg hpk]
    apply ih
    simpa [tblHas, hpk] using hh

theorem tblGet_append_single_other (t : Table) (k k2 : String) (r : Rec)
    (h : k2 ≠ k) :
    tblGet (t ++ [(k2, r)]) k = tblGet t k := by
  induction t with
  | nil => simp [tblGet, List.find?, h]
  | cons p t ih =>
    rw [List.cons_append, tblGet_cons, tblGet_cons]
    by_cases hpk : p.1 = k
    · rw [if_pos hpk, if_pos hpk]
    · rw [if_neg hpk, if_neg hpk]
      exact ih

theorem tblGet_set_self (t : Table) (k : String) (r : Rec) :
    tblGet (tblSet t k r) k = some r := by
  unfold tblSet
  by_cases hh : tblHas t k
  · rw [if_pos hh]
    exact tblGet_map_update_self t k r hh
  · rw [if_neg hh]
    exact tblGet_append_single_self t k r (by simpa using hh)

theorem tblGet_set_other (t : Table) (k k2 : String) (r : Rec) (h : k2 ≠ k) :
    tblGet (tblSet t k2 r) k = tblGet t k := by
  unfold tblSet
  by_cases hh : tblHas t k2
  · rw [if_pos hh]
    exact tblGet_map_update_other t k k2 r h
  · rw [if_neg hh]
    exact tblGet_append_single_other t k k2 r h

theorem tblGet_del_self (t : Table) (k : String) :
    tblGet (tblDel t k) k = none := by
  unfold tblDel
  induction t with
  | nil => rfl
  | cons p t ih =>
    rw [List.filter_cons]
    by_cases hpk : p.1 = k
    · simp only [hpk]
      simpa using ih
    · have : (decide ¬(p.1 = k)) = true := by simp [hpk]
      rw [this]
      simp only [if_true]
      rw [tblGet_cons, if_neg hpk]
      exact ih

theorem tblGet_del_other (t : Table) (k k2 : String) (h : k2 ≠ k) :
    tblGet (tblDel t k2) k = tblGet t k := by
  unfold tblDel
  induction t with
  | nil => rfl
  | cons p t ih =>
    rw [List.filter_cons]
    by_cases hpk2 : p.1 = k2
    · have hd : (decide ¬(p.1 = k2)) = false := by simp [hpk2]
      rw [hd]
      simp only [Bool.false_eq_true, if_false]
      rw [tblGet_cons]
      have hpk : ¬(p.1 = k) := by
        rw [hpk2]
        exact h
      rw [if_neg hpk]
      exact ih
    · have hd : (decide ¬(p.1 = k2)) = true := by simp [hpk2]
      rw [hd]
      simp only [if_true]
      rw [tblGet_cons, tblGet_cons]
      by_cases hpk : p.1 = k
      · rw [if_pos hpk, if_pos hpk]
      · rw [if_neg hpk, if_neg hpk]
        exact ih

/-- A successful lookup comes from a member entry. -/
theorem tblGet_mem (t : Table) (k : String) (r : Rec) (h : tblGet t k = some r) :
    (k, r) ∈ t := by
  unfold tblGet at h
  cases hfind : t.find? (fun p => p.1 = k) with
  | none => rw [hfind] at h; simp at h
  | some p =>
    rw [hfind] at h
    simp at h
    have hmem := List.mem_of_find?_eq_some hfind
    have hkey := List.find?_some hfind
    simp at hkey
    have : p = (k, r) := by
      cases p
      simp at hkey h
      simp [hkey, h]
    rwa [this] at hmem

/-- Running a sequence of operations on an open engine succeeds and has
the expected table / WAL-queue effect. -/
theorem runOps_open (ops : List Op) (t : Table) (q : List (List Nat)) :
    runOps ⟨t, q, false⟩ ops = some ⟨ops.foldl applyOp t, q ++ ops.map opRecordBytes, false⟩ := by
  induction ops generalizing t q with
  | nil => simp [runOps]
  | cons o os ih =>
    cases o with
    | put k v now =>
      have h1 : runOps ⟨t, q, false⟩ (Op.put k v now :: os) =
          runOps ⟨tblSet t k ⟨v, now⟩, q ++ [serializeRecord "put" k v], false⟩ os := rfl
      rw [h1, ih]
      simp [applyOp, opRecordBytes]
    | del k =>
      have h1 : runOps ⟨t, q, false⟩ (Op.del k :: os) =
          runOps ⟨tblDel t k, q ++ [serializeRecord "del" k (.vStr "")], false⟩ os := rfl
      rw [h1, ih]
      simp [applyOp, opRecordBytes]

/-- C8: For every finite sequence of put and del operations on a single
key applied to an open engine, a subsequent get of that key returns the
value of the last applied mutation, and returns null (surfaced as 404) if
the last mutation was a delete or no mutation occurred. -/
theorem single_key_last_write_wins (ops : List Op) (k : String)
    (hk : ∀ op ∈ ops, op.key = k) :
    ∃ e : Engine, runOps openEngine ops = some e ∧
      get e k = lastWriteWinsSpec ops ∧
      (getReplyStatus (get e k) = 404 ↔ lastWriteWinsSpec ops = none) := by
  refine ⟨⟨liveTable ops, ops.map opRecordBytes, false⟩, ?_, ?_⟩
  · have h := runOps_open ops [] []
    simpa [openEngine, liveTable] using h
  · have hget : get ⟨liveTable ops, ops.map opRecordBytes, false⟩ k = lastWriteWinsSpec ops := by
      rcases List.eq_nil_or_concat ops with rfl | ⟨os, o, rfl⟩
      · rfl
      · simp only [List.concat_eq_append]
        have hok : o.key = k := hk o (by simp)
        show tblGet (liveTable (os ++ [o])) k = _
        have hfold : liveTable (os ++ [o]) = applyOp (liveTable os) o := by
          simp [liveTable]
        rw [hfold]
        cases o with
        | put k2 v now =>
          have hk2 : k2 = k := hok
          subst hk2
          show tblGet (tblSet (liveTable os) k2 ⟨v, now⟩) k2 = _
          rw [tblGet_set_self]
          simp [lastWriteWinsSpec]
        | del k2 =>
          have hk2 : k2 = k := hok
          subst hk2
          show tblGet (tblDel (liveTable os) k2) k2 = _
          rw [tblGet_del_self]
          simp [lastWriteWinsSpec]
    refine ⟨hget, ?_⟩
    rw [hget]
    cases h : lastWriteWinsSpec ops <;> simp [getReplyStatus]

/-- Witness for `single_key_last_write_wins`: put then delete on `"k"`
yields a 404. -/
theorem single_key_last_write_wins_witness :
    (∀ op ∈ [Op.put "k" (.vStr "v") 3, Op.del "k"], op.key = "k") ∧
    (∃ e : Engine, runOps openEngine [Op.put "k" (.vStr "v") 3, Op.del "k"] = some e ∧
      get e "k" = lastWriteWinsSpec [Op.put "k" (.vStr "v") 3, Op.del "k"] ∧
      (getReplyStatus (get e "k") = 404 ↔
        lastWriteWinsSpec [Op.put "k" (.vStr "v") 3, Op.del "k"] = none)) :=
  ⟨by decide, single_key_last_write_wins _ "k" (by decide)⟩

/-! ## C1: recovery at a malformed WAL tail

The claim says recovery applies the clean prefix, stops at the malformed
point, and does not raise.  The code does neither reliably:
`readUInt32BE` throws `ERR_OUT_OF_RANGE` (uncaught in `recover`) on a
truncated header, so `open` fails; and an "impossible length" record is
not skipped but applied with clamped slices. -/

/-- C1 (code divergence): on a WAL holding one valid PUT followed by a
3-byte torn tail, `recover` throws (`none`) instead of returning the
cleanly recovered prefix; the prefix alone recovers fine; and a 9-byte
garbage tail with op byte 1 and an impossible key length is applied as a
garbage record (key `""`) rather than stopped at. -/
theorem recover_torn_tail_behavior :
    recover [] (serializeRecord "put" "valid" (.vStr "data") ++ [255, 255, 255]) 7 = none ∧
    recover [] (serializeRecord "put" "valid" (.vStr "data")) 7 =
      some [("valid", ⟨.vStr "data", 7⟩)] ∧
    recover [] (serializeRecord "put" "valid" (.vStr "data") ++
        [1, 255, 255, 255, 255, 0, 0, 0, 0]) 7 =
      some [("valid", ⟨.vStr "data", 7⟩), ("", ⟨.vStr "", 7⟩)] :=
  ⟨rfl, rfl, rfl⟩

/-! ## Ring lemmas -/

theorem mem_buildRing_node (S : List String) (V : Nat) (e : RingEntry)
    (he : e ∈ buildRing S V) : e.node ∈ S := by
  unfold buildRing at he
  rw [List.mem_mergeSort, List.mem_flatMap] at he
  obtain ⟨n, hn, hmem⟩ := he
  rw [List.mem_map] at hmem
  obtain ⟨i, _, rfl⟩ := hmem
  exact hn

theorem buildRing_ne_nil (S : List String) (V : Nat) (hS : S ≠ []) (hV : 1 ≤ V) :
    buildRing S V ≠ [] := by
  cases S with
  | nil => exact absurd rfl hS
  | cons s S2 =>
    intro hnil
    have hmem : (⟨vnodeHash s 0, s⟩ : RingEntry) ∈ buildRing (s :: S2) V := by
      unfold buildRing
      rw [List.mem_mergeSort, List.mem_flatMap]
      refine ⟨s, by simp, ?_⟩
      rw [List.mem_map]
      exact ⟨0, by simp [List.mem_range]; omega, rfl⟩
    rw [hnil] at hmem
    exact absurd hmem (List.not_mem_nil _)

theorem buildRing_sorted (S : List String) (V : Nat) :
    (buildRing S V).Pairwise (fun a b => a.hash ≤ b.hash) := by
  unfold buildRing
  have h := @List.sorted_mergeSort RingEntry (fun a b => a.hash ≤ b.hash)
    (fun a b c h1 h2 => by
      simp only [decide_eq_true_eq] at *
      omega)
    (fun a b => by
      simp only [Bool.or_eq_true, decide_eq_true_eq]
      exact Nat.le_total a.hash b.hash)
    (S.flatMap (fun n => (List.range V).map (fun i => ⟨vnodeHash n i, n⟩)))
  exact h.imp (fun hab => by simpa using hab)

theorem ringGetHash_lt (ring : List RingEntry) (i : Nat) (hi : i < ring.length) :
    ringGetHash ring i = (ring.get ⟨i, hi⟩).hash := by
  rw [ringGetHash, List.get?_eq_get hi]
  rfl

theorem ringGetHash_mono (ring : List RingEntry)
    (hs : ring.Pairwise (fun a b => a.hash ≤ b.hash)) (i j : Nat) (hij : i ≤ j)
    (hj : j < ring.length) : ringGetHash ring i ≤ ringGetHash ring j := by
  rcases Nat.eq_or_lt_of_le hij with rfl | hlt
  · exact le_refl _
  · have hi : i < ring.length := lt_trans hlt hj
    have h := List.pairwise_iff_get.mp hs ⟨i, hi⟩ ⟨j, hj⟩ hlt
    rw [ringGetHash_lt ring i hi, ringGetHash_lt ring j hj]
    exact h

theorem bsearchLoop_correct (ring : List RingEntry) (target : Nat)
    (hs : ring.Pairwise (fun a b => a.hash ≤ b.hash)) :
    ∀ (n : Nat) (lo hi : Int), (hi + 1 - lo).toNat ≤ n →
      0 ≤ lo → hi < (ring.length : Int) → lo ≤ hi + 1 →
      (∀ i : Nat, (i : Int) < lo → ringGetHash ring i < target) →
      (∀ i : Nat, hi < (i : Int) → i < ring.length → target ≤ ringGetHash ring i) →
      0 ≤ bsearchLoop ring target lo hi ∧
      bsearchLoop ring target lo hi ≤ (ring.length : Int) ∧
      (∀ i : Nat, (i : Int) < bsearchLoop ring target lo hi → ringGetHash ring i < target) ∧
      (bsearchLoop ring target lo hi < (ring.length : Int) →
        target ≤ ringGetHash ring (bsearchLoop ring target lo hi).toNat) := by
  intro n
  induction n with
  | zero =>
    intro lo hi hn h0 hlen hlohi hlow hhigh
    have hgt : ¬(lo ≤ hi) := by omega
    rw [bsearchLoop, dif_neg hgt]
    refine ⟨h0, by omega, hlow, fun hlt => ?_⟩
    exact hhigh lo.toNat (by omega) (by omega)
  | succ n ih =>
    intro lo hi hn h0 hlen hlohi hlow hhigh
    by_cases hle : lo ≤ hi
    · rw [bsearchLoop, dif_pos hle]
      have hmid0 : lo ≤ (lo + hi) / 2 := by omega
      have hmid1 : (lo + hi) / 2 ≤ hi := by omega
      by_cases hcmp : ringGetHash ring ((lo + hi) / 2).toNat < target
      · simp only [hcmp, if_true]
        refine ih ((lo + hi) / 2 + 1) hi (by omega) (by omega) hlen (by omega) ?_ hhigh
        intro i hi2
        by_cases hil : (i : Int) < lo
        · exact hlow i hil
        · have hle2 : i ≤ ((lo + hi) / 2).toNat := by omega
          have hmlen : ((lo + hi) / 2).toNat < ring.length := by omega
          exact lt_of_le_of_lt (ringGetHash_mono ring hs i _ hle2 hmlen) hcmp
      · simp only [hcmp, if_false]
        push_neg at hcmp
        refine ih lo ((lo + hi) / 2 - 1) (by omega) h0 (by omega) (by omega) hlow ?_
        intro i hi2 hilen
        have hmi : ((lo + hi) / 2).toNat ≤ i := by omega
        exact le_trans hcmp (ringGetHash_mono ring hs _ i hmi hilen)
    · rw [bsearchLoop, dif_neg hle]
      refine ⟨h0, by omega, hlow, fun hlt => ?_⟩
      exact hhigh lo.toNat (by omega) (by omega)

theorem find?_eq_get_of_first (l : List RingEntry) (p : RingEntry → Bool) :
    ∀ (j : Nat) (hj : j < l.length),
      (∀ i (hi : i < l.length), i < j → p (l.get ⟨i, hi⟩) = false) →
      p (l.get ⟨j, hj⟩) = true →
      l.find? p = some (l.get ⟨j, hj⟩) := by
  induction l with
  | nil =>
    intro j hj
    simp at hj
  | cons a l ih =>
    intro j hj hbefore hp
    cases j with
    | zero =>
      have hpa : p a = true := hp
      rw [List.find?_cons_of_pos _ hpa]
      rfl
    | succ j =>
      have ha : p a = false := hbefore 0 (by omega) (by omega)
      rw [List.find?_cons_of_neg _ (by simp [ha])]
      exact ih j (by simpa using Nat.lt_of_succ_lt_succ hj)
        (fun i hi hij => hbefore (i + 1) (by omega) (by omega)) hp

/-- C6: For every non-empty shard set `S`, every `vnodes ≥ 10` and every
key `k`, `pickNode (buildRing S V) k` returns an element of `S`, and that
element is the shard of the first sorted ring entry with position ≥ the
key's position, wrapping to entry 0 when no such entry exists. -/
theorem pickNode_mem_shards (S : List String) (V : Nat) (k : String)
    (hS : S ≠ []) (hV : 10 ≤ V) :
    ∃ n, pickNode (buildRing S V) k = some n ∧ n ∈ S ∧
      pickSpec (buildRing S V) (keyHash k) = some n := by
  have hs := buildRing_sorted S V
  have hne := buildRing_ne_nil S V hS (by omega)
  have hlen0 : 0 < (buildRing S V).length := List.length_pos.mpr hne
  obtain ⟨hge0, hleLen, hlow, hhit⟩ := bsearchLoop_correct (buildRing S V) (keyHash k) hs
    ((buildRing S V).length) 0 (((buildRing S V).length : Int) - 1)
    (by omega) (by omega) (by omega) (by omega)
    (fun i hi2 => absurd hi2 (by omega))
    (fun i hi2 hilen => by omega)
  by_cases hres : bsearchLoop (buildRing S V) (keyHash k) 0
      (((buildRing S V).length : Int) - 1) < ((buildRing S V).length : Int)
  · have hnat : (bsearchLoop (buildRing S V) (keyHash k) 0
        (((buildRing S V).length : Int) - 1)).toNat < (buildRing S V).length := by omega
    have hget := List.get?_eq_get hnat
    have hbef : ∀ i (hi : i < (buildRing S V).length),
        i < (bsearchLoop (buildRing S V) (keyHash k) 0
          (((buildRing S V).length : Int) - 1)).toNat →
        decide (keyHash k ≤ ((buildRing S V).get ⟨i, hi⟩).hash) = false := by
      intro i hi hij
      have h := hlow i (by omega)
      rw [ringGetHash_lt _ i hi] at h
      exact decide_eq_false (by omega)
    have hat : decide (keyHash k ≤ ((buildRing S V).get ⟨_, hnat⟩).hash) = true := by
      have h := hhit hres
      rw [ringGetHash_lt _ _ hnat] at h
      exact decide_eq_true h
    refine ⟨((buildRing S V).get ⟨_, hnat⟩).node, ?_, ?_, ?_⟩
    · show (match (buildRing S V).get?
          (bsearchLoop (buildRing S V) (keyHash k) 0
            (((buildRing S V).length : Int) - 1)).toNat with
        | some e => some e.node
        | none => Option.map (fun e : RingEntry => e.node) ((buildRing S V).get? 0)) = _
      rw [hget]
    · exact mem_buildRing_node S V _ (List.get_mem _ _ hnat)
    · unfold pickSpec
      rw [find?_eq_get_of_first (buildRing S V) (fun e => decide (keyHash k ≤ e.hash))
        _ hnat hbef hat]
  · have hnone : (buildRing S V).get?
        (bsearchLoop (buildRing S V) (keyHash k) 0
          (((buildRing S V).length : Int) - 1)).toNat = none := by
      rw [List.get?_eq_none]
      omega
    have hfind : (buildRing S V).find? (fun e => keyHash k ≤ e.hash) = none := by
      rw [List.find?_eq_none]
      intro e hmem
      obtain ⟨⟨i, hi2⟩, rfl⟩ := List.mem_iff_get.mp hmem
      have h := hlow i (by omega)
      rw [ringGetHash_lt _ i hi2] at h
      simp only [decide_eq_true_eq]
      omega
    obtain ⟨e0, he0⟩ : ∃ e0, (buildRing S V).head? = some e0 := by
      cases hr : buildRing S V with
      | nil => exact absurd hr hne
      | cons a l => exact ⟨a, rfl⟩
    refine ⟨e0.node, ?_, ?_, ?_⟩
    · show (match (buildRing S V).get?
          (bsearchLoop (buildRing S V) (keyHash k) 0
            (((buildRing S V).length : Int) - 1)).toNat with
        | some e => some e.node
        | none => Option.map (fun e : RingEntry => e.node) ((buildRing S V).get? 0)) = _
      rw [hnone, List.get?_zero, he0]
      rfl
    · exact mem_buildRing_node S V e0 (List.mem_of_mem_head? (by rw [he0]; rfl))
    · unfold pickSpec
      rw [hfind, he0]
      rfl

/-- Witness for `pickNode_mem_shards` at `S = ["A"]`, `V = 10`,
`k = "x"`. -/
theorem pickNode_mem_shards_witness :
    ((["A"] : List String) ≠ [] ∧ 10 ≤ 10) ∧
    (∃ n, pickNode (buildRing ["A"] 10) "x" = some n ∧ n ∈ (["A"] : List String) ∧
      pickSpec (buildRing ["A"] 10) (keyHash "x") = some n) :=
  ⟨⟨by decide, by decide⟩, pickNode_mem_shards ["A"] 10 "x" (by decide) (by decide)⟩

/-- C7: `buildRing` and `pickNode` are deterministic — in the embedding
both are pure functions of `(shards, vnodes)` and `(ring, key)` (no
ambient state, randomness or clock), so two identically-parameterised
calls yield identical results. -/
theorem ring_pick_deterministic (S : List String) (V : Nat) :
    buildRing S V = buildRing S V ∧
      ∀ k, pickNode (buildRing S V) k = pickNode (buildRing S V) k :=
  ⟨rfl, fun _ => rfl⟩

/-- C3 (code divergence): with one replica whose forward fails and quorum
2, the loop threshold `min(quorum, replicas.length + 1) = 2` is
unreachable; the all-settled break never fires because `p.status` is
`undefined` on a Promise, so `replicate` never returns — the loop is
still spinning after every number of poll rounds. -/
theorem replicate_hangs_on_failed_forward :
    (∀ fuel, replicate [none] 2 fuel = none) ∧ allSettledCheck 1 = false := by
  refine ⟨?_, rfl⟩
  have h : ∀ fuel t, replicateLoop [none] 2 t fuel = none := by
    intro fuel
    induction fuel with
    | zero => intro t; rfl
    | succ fuel ih =>
      intro t
      have hacks : acksAt [none] t = 1 := rfl
      show (if acksAt [none] t < min 2 ([none].length + 1) then
          if allSettledCheck [none].length then
            some ⟨acksAt [none] (t + 1), 2, decide (2 ≤ acksAt [none] (t + 1))⟩
          else replicateLoop [none] 2 (t + 1) fuel
        else some ⟨acksAt [none] t, 2, decide (2 ≤ acksAt [none] t)⟩) = none
      rw [hacks]
      rw [if_pos (by norm_num)]
      rw [show allSettledCheck [none].length = false from rfl]
      simp only [Bool.false_eq_true, if_false]
      exact ih (t + 1)
  exact fun fuel => h fuel 0

theorem acksAt_le (env : List (Option Nat)) (t : Nat) :
    acksAt env t ≤ env.length + 1 := by
  unfold acksAt
  have h : (List.countP (fun o : Option Nat =>
      match o with
      | some ti => decide (ti < t)
      | none => false) env) ≤ env.length := List.countP_le_length _
  omega

theorem replicateLoop_result (env : List (Option Nat)) (q : Nat) :
    ∀ fuel t r, replicateLoop env q t fuel = some r →
      r.acks ≤ env.length + 1 ∧ r.quorum = q ∧ r.ok = decide (q ≤ r.acks) := by
  intro fuel
  induction fuel with
  | zero =>
    intro t r h
    exact absurd h (by simp [replicateLoop])
  | succ fuel ih =>
    intro t r h
    rw [show replicateLoop env q t (fuel + 1) =
        (if acksAt env t < min q (env.length + 1) then
          if allSettledCheck env.length then
            some ⟨acksAt env (t + 1), q, decide (q ≤ acksAt env (t + 1))⟩
          else replicateLoop env q (t + 1) fuel
        else some ⟨acksAt env t, q, decide (q ≤ acksAt env t)⟩) from rfl] at h
    by_cases hc : acksAt env t < min q (env.length + 1)
    · rw [if_pos hc] at h
      by_cases hs : allSettledCheck env.length
      · rw [if_pos hs] at h
        cases h
        exact ⟨acksAt_le env (t + 1), rfl, rfl⟩
      · rw [if_neg hs] at h
        exact ih (t + 1) r h
    · rw [if_neg hc] at h
      cases h
      exact ⟨acksAt_le env t, rfl, rfl⟩

/-- C4 amended: for every originating PUT with a non-empty replicas list
and quorum strictly greater than replicas.length + 1, every reply
`replicate()` produces has `ok = false` and is sent with status 500.
(With an empty replicas list the code instead replies
`{ok: true, acks: 1, quorum: 1}` regardless of the configured quorum —
see the counterexample.) -/
theorem impossible_quorum_reply (env : List (Option Nat)) (q fuel : Nat) (r : ReplResult)
    (henv : env ≠ []) (hq : env.length + 1 < q)
    (hret : replicate env q fuel = some r) :
    r.ok = false ∧ putReply r = (500, r) := by
  unfold replicate at hret
  rw [if_neg (by simpa using henv)] at hret
  obtain ⟨hbound, hquorum, hok⟩ := replicateLoop_result env q fuel 0 r hret
  have hlt : ¬(q ≤ r.acks) := by omega
  have hokf : r.ok = false := by
    rw [hok]
    exact decide_eq_false hlt
  exact ⟨hokf, by simp [putReply, hokf]⟩

/-- Witness for `impossible_quorum_reply`: one replica that acknowledges
immediately, quorum 3: the loop exits with 2 acks and replies
`{ok: false, acks: 2, quorum: 3}` at status 500. -/
theorem impossible_quorum_reply_witness :
    (([some 0] : List (Option Nat)) ≠ [] ∧ ([some 0] : List (Option Nat)).length + 1 < 3 ∧
      replicate [some 0] 3 2 = some ⟨2, 3, false⟩) ∧
    (ReplResult.mk 2 3 false).ok = false ∧
      putReply ⟨2, 3, false⟩ = (500, ⟨2, 3, false⟩) :=
  ⟨⟨by decide, by decide, by decide⟩,
    impossible_quorum_reply [some 0] 3 2 ⟨2, 3, false⟩ (by decide) (by decide) (by decide)⟩

/-- C4 counterexample: with an empty replicas list and configured quorum
5 (strictly greater than replicas.length + 1 = 1), the originating PUT
reply is `{ok: true, acks: 1, quorum: 1}` at status 200 — not
`ok = false` as the claim states. -/
theorem replicate_empty_replicas_ok_true :
    replicate [] 5 1 = some ⟨1, 1, true⟩ ∧
      putReply ⟨1, 1, true⟩ = (200, ⟨1, 1, true⟩) ∧ ([] : List (Option Nat)).length + 1 < 5 :=
  ⟨rfl, rfl, by decide⟩

/-- C10: For every PUT /kv request whose content-type includes
`application/json` and whose body fails to parse as JSON, the shard
replies 400 and the engine state is unchanged: no put is applied to the
table and no record is appended to the WAL queue. -/
theorem invalid_json_put_rejected (e : Engine) (now : Nat) (key : String)
    (ct : Option String) (body : String)
    (hct : ctIncludesJson ct = true) (hbad : jsonParse body = none) :
    handlePutCore e now key ct body = .error (400, e) := by
  simp [handlePutCore, shardPutValue, hct, hbad]

/-- Witness for `invalid_json_put_rejected`: a JSON PUT whose body is the
malformed `\x7bbad`. -/
theorem invalid_json_put_rejected_witness :
    (ctIncludesJson (some "application/json") = true ∧ jsonParse "\x7bbad" = none) ∧
    handlePutCore openEngine 0 "k" (some "application/json") "\x7bbad" =
      .error (400, openEngine) :=
  ⟨⟨rfl, rfl⟩,
    invalid_json_put_rejected openEngine 0 "k" (some "application/json") "\x7bbad" rfl rfl⟩

/-- C5 (code divergence): the router forwards every PUT with content-type
`text/plain` regardless of the client's header, so a JSON PUT routed
through the coordinator reaches the shard as `text/plain` and is stored
as the raw body string, while the same request sent directly to the shard
stores the structured value. -/
theorem router_drops_content_type :
    proxyContentType (some "application/json") = "text/plain" ∧
    "text/plain" ≠ "application/json" ∧
    shardPutValue (some (proxyContentType (some "application/json"))) "\x7b\"a\":1\x7d" =
      .ok (.vStr "\x7b\"a\":1\x7d") ∧
    shardPutValue (some "application/json") "\x7b\"a\":1\x7d" =
      .ok (.vObj [("a", .vNum 1)]) :=
  ⟨rfl, by decide, rfl, rfl⟩

/-- One record framed at the front of the WAL stream is consumed exactly,
and the loop continues on the remainder. -/
theorem recoverLoop_frame (now fuel : Nat) (opb : Nat) (kb wb more : List Nat) (t : Table)
    (hk : kb.length < 2 ^ 32) (hw : wb.length < 2 ^ 32) :
    recoverLoop now (fuel + 1)
      (opb :: (be32 kb.length ++ (be32 wb.length ++ (kb ++ wb))) ++ more) t =
    recoverLoop now fuel more
      (applyRecord now (if opb = 1 then "put" else "del") (bytesToStr kb)
        (recoverValue (bytesToStr wb)) t) := by
  have hshape : opb :: (be32 kb.length ++ (be32 wb.length ++ (kb ++ wb))) ++ more =
      opb :: kb.length / 16777216 % 256 :: kb.length / 65536 % 256 ::
      kb.length / 256 % 256 :: kb.length % 256 :: wb.length / 16777216 % 256 ::
      wb.length / 65536 % 256 :: wb.length / 256 % 256 :: wb.length % 256 ::
      (kb ++ (wb ++ more)) := by
    simp [be32, List.append_assoc]
  rw [hshape]
  have hkl : ((kb.length / 16777216 % 256 * 256 + kb.length / 65536 % 256) * 256 +
      kb.length / 256 % 256) * 256 + kb.length % 256 = kb.length := by omega
  have hwl : ((wb.length / 16777216 % 256 * 256 + wb.length / 65536 % 256) * 256 +
      wb.length / 256 % 256) * 256 + wb.length % 256 = wb.length := by omega
  simp only [recoverLoop]
  rw [hkl, hwl]
  rw [List.take_left, List.drop_left, List.take_left, List.drop_left]

/-- Replaying the WAL bytes of an operation sequence reproduces the fold
of per-record replays, for any sufficient fuel. -/
theorem recoverLoop_replay (t0 : Nat) (ops : List Op) :
    ∀ (fuel : Nat) (t : Table), ops.length ≤ fuel →
      (∀ o ∈ ops, opSizesOk o) →
      recoverLoop t0 fuel (walBytes ops) t = some (ops.foldl (replayOp t0) t) := by
  induction ops with
  | nil =>
    intro fuel t _ _
    cases fuel <;> rfl
  | cons o os ih =>
    intro fuel t hfuel hsz
    match fuel, hfuel with
    | fuel + 1, hfuel =>
      rw [show walBytes (o :: os) = opRecordBytes o ++ walBytes os by simp [walBytes]]
      obtain ⟨hk, hw⟩ := hsz o (List.mem_cons_self o os)
      cases o with
      | put k v now =>
        have hnf : opRecordBytes (.put k v now) =
            (1 : Nat) :: (be32 (strBytes k).length ++
              (be32 (strBytes (serializeValue v)).length ++
                (strBytes k ++ strBytes (serializeValue v)))) := by
          show serializeRecord "put" k v = _
          rw [serializeRecord_eq]
          simp
        rw [hnf]
        rw [recoverLoop_frame t0 fuel 1 (strBytes k) (strBytes (serializeValue v))
          (walBytes os) t hk hw]
        rw [bytesToStr_strBytes, bytesToStr_strBytes]
        have happ : applyRecord t0 (if (1 : Nat) = 1 then "put" else "del") k
            (recoverValue (serializeValue v)) t = replayOp t0 t (.put k v now) := by
          simp [applyRecord, replayOp, roundTrip]
        rw [happ]
        rw [ih fuel _ (by simpa using Nat.le_of_succ_le_succ hfuel)
          (fun o2 ho2 => hsz o2 (List.mem_cons_of_mem _ ho2))]
        rfl
      | del k =>
        have hnf : opRecordBytes (.del k) =
            (2 : Nat) :: (be32 (strBytes k).length ++
              (be32 (strBytes (serializeValue (.vStr ""))).length ++
                (strBytes k ++ strBytes (serializeValue (.vStr ""))))) := by
          show serializeRecord "del" k (.vStr "") = _
          rw [serializeRecord_eq]
          simp
        rw [hnf]
        rw [recoverLoop_frame t0 fuel 2 (strBytes k) (strBytes (serializeValue (.vStr "")))
          (walBytes os) t hk hw]
        rw [bytesToStr_strBytes]
        have happ : applyRecord t0 (if (2 : Nat) = 1 then "put" else "del") k
            (recoverValue (bytesToStr (strBytes (serializeValue (.vStr ""))))) t =
            replayOp t0 t (.del k) := by
          simp [applyRecord, replayOp]
        rw [happ]
        rw [ih fuel _ (by simpa using Nat.le_of_succ_le_succ hfuel)
          (fun o2 ho2 => hsz o2 (List.mem_cons_of_mem _ ho2))]
        rfl

/-- Every WAL record is at least 9 bytes, so the byte length bounds the
record count. -/
theorem walBytes_length_ge (ops : List Op) : ops.length ≤ (walBytes ops).length := by
  induction ops with
  | nil => simp [walBytes]
  | cons o os ih =>
    rw [show walBytes (o :: os) = opRecordBytes o ++ walBytes os by simp [walBytes]]
    have h9 : 1 ≤ (opRecordBytes o).length := by
      cases o with
      | put k v now =>
        show 1 ≤ (serializeRecord "put" k v).length
        rw [serializeRecord_eq]
        simp
      | del k =>
        show 1 ≤ (serializeRecord "del" k (.vStr "")).length
        rw [serializeRecord_eq]
        simp
    simp only [List.length_append, List.length_cons]
    omega

theorem applyOp_eq_opFold : applyOp = opFold (fun v now => ⟨v, now⟩) := by
  funext t o
  cases o <;> rfl

theorem replayOp_eq_opFold (t0 : Nat) :
    replayOp t0 = opFold (fun v _ => ⟨roundTrip v, t0⟩) := by
  funext t o
  cases o <;> rfl

/-- Last-write-wins lookup through a fold of table operations: the result
at `k` is decided by the last operation touching `k`, else by the initial
table. -/
theorem opFold_lookup (recOf : JVal → Nat → Rec) (ops : List Op) (k : String) :
    ∀ t : Table, tblGet (ops.foldl (opFold recOf) t) k =
      match (ops.filter (fun o => o.key = k)).getLast? with
      | some (.put _ v now) => some (recOf v now)
      | some (.del _) => none
      | none => tblGet t k := by
  induction ops with
  | nil => intro t; rfl
  | cons o os ih =>
    intro t
    rw [List.foldl_cons, ih (opFold recOf t o)]
    by_cases hk : o.key = k
    · rw [List.filter_cons_of_pos (by simpa using hk)]
      cases hrest : os.filter (fun o => decide (o.key = k)) with
      | cons o2 rest =>
        rw [List.getLast?_cons_cons]
        obtain ⟨x, hx⟩ : ∃ x, (o2 :: rest).getLast? = some x := by
          cases hgl : (o2 :: rest).getLast? with
          | none =>
            rw [List.getLast?_eq_none_iff] at hgl
            exact absurd hgl (by simp)
          | some x => exact ⟨x, rfl⟩
        rw [hx]
        cases x <;> rfl
      | nil =>
        cases o with
        | put k2 v now =>
          have hk2 : k2 = k := hk
          subst hk2
          show tblGet (tblSet t k2 (recOf v now)) k2 = some (recOf v now)
          rw [tblGet_set_self]
        | del k2 =>
          have hk2 : k2 = k := hk
          subst hk2
          show tblGet (tblDel t k2) k2 = none
          rw [tblGet_del_self]
    · rw [List.filter_cons_of_neg (by simpa using hk)]
      cases hrest : (os.filter (fun o => decide (o.key = k))).getLast? with
      | some o2 => cases o2 <;> rfl
      | none =>
        show tblGet (opFold recOf t o) k = tblGet t k
        cases o with
        | put k2 v now =>
          exact tblGet_set_other t k k2 (recOf v now) hk
        | del k2 =>
          exact tblGet_del_other t k k2 hk

/-- C2 amended: for every durably flushed operation sequence, recovery
over the snapshot-loaded table followed by the WAL succeeds and yields a
table with exactly the live table's keys, each surviving record holding
the serialize-then-reparse image of the live value and a timestamp
assigned at recovery time (the WAL record format carries no timestamp);
string values that do not JSON-parse to an object or array round-trip
unchanged.  `hinit` states that every snapshot key was put at some point
of the sequence — true of any snapshot the engine itself wrote, since the
WAL is never truncated. -/
theorem recovery_replays_wal (ops : List Op) (init : Table) (t0 : Nat)
    (hsz : ∀ o ∈ ops, opSizesOk o)
    (hinit : ∀ p ∈ init, ∃ v now, Op.put p.1 v now ∈ ops) :
    ∃ t, recover init (walBytes ops) t0 = some t ∧
      (∀ k, tblGet t k =
        (tblGet (liveTable ops) k).map (fun r => ⟨roundTrip r.value, t0⟩)) ∧
      (∀ s, (match jsonParse s with
        | some (.vObj _) => False
        | some (.vArr _) => False
        | _ => True) → roundTrip (.vStr s) = .vStr s) := by
  refine ⟨ops.foldl (replayOp t0) init, ?_, ?_, ?_⟩
  · unfold recover
    exact recoverLoop_replay t0 ops ((walBytes ops).length + 1) init
      (by have := walBytes_length_ge ops; omega) hsz
  · intro k
    rw [replayOp_eq_opFold t0, opFold_lookup]
    unfold liveTable
    rw [applyOp_eq_opFold, opFold_lookup]
    cases hlast : (ops.filter (fun o => o.key = k)).getLast? with
    | some o2 =>
      cases o2 with
      | put k2 v now => rfl
      | del k2 => rfl
    | none =>
      show tblGet init k = (tblGet [] k).map _
      rw [show tblGet ([] : Table) k = none from rfl]
      cases hget : tblGet init k with
      | none => rfl
      | some r =>
        exfalso
        obtain ⟨v, now, hmem⟩ := hinit (k, r) (tblGet_mem init k r hget)
        have hfil : Op.put k v now ∈ ops.filter (fun o => o.key = k) := by
          rw [List.mem_filter]
          exact ⟨hmem, by simp [Op.key]⟩
        have hne := List.ne_nil_of_mem hfil
        rw [List.getLast?_eq_none_iff] at hlast
        exact hne hlast
  · intro s hs
    show recoverValue (serializeValue (.vStr s)) = .vStr s
    rw [show serializeValue (.vStr s) = s from rfl]
    unfold recoverValue
    cases h : jsonParse s with
    | none => rfl
    | some v =>
      rw [h] at hs
      cases v <;> first | rfl | exact absurd hs (by simp)

/-- Witness for `recovery_replays_wal`: one put of the string `"[1]"`,
no snapshot, recovery at time 9. -/
theorem recovery_replays_wal_witness :
    ((∀ o ∈ [Op.put "k" (.vStr "[1]") 5], opSizesOk o) ∧
      (∀ p ∈ ([] : Table), ∃ v now, Op.put p.1 v now ∈ [Op.put "k" (.vStr "[1]") 5])) ∧
    (∃ t, recover [] (walBytes [Op.put "k" (.vStr "[1]") 5]) 9 = some t ∧
      (∀ k, tblGet t k =
        (tblGet (liveTable [Op.put "k" (.vStr "[1]") 5]) k).map
          (fun r => ⟨roundTrip r.value, 9⟩)) ∧
      (∀ s, (match jsonParse s with
        | some (.vObj _) => False
        | some (.vArr _) => False
        | _ => True) → roundTrip (.vStr s) = .vStr s)) :=
  ⟨⟨fun o ho => by
      rw [List.mem_singleton] at ho
      subst ho
      exact ⟨by decide, by decide⟩,
    fun p hp => absurd hp (List.not_mem_nil p)⟩,
    recovery_replays_wal [Op.put "k" (.vStr "[1]") 5] [] 9
      (fun o ho => by
        rw [List.mem_singleton] at ho
        subst ho
        exact ⟨by decide, by decide⟩)
      (fun p hp => absurd hp (List.not_mem_nil p))⟩

/-- C2 counterexample: after `put "k" "[1]"` at time 5, the live table
holds the raw string with timestamp 5, but recovery at time 9 yields the
re-parsed array with timestamp 9 — the recovered table is not equal in
values or timestamps to the live one. -/
theorem recovery_not_identical :
    liveTable [Op.put "k" (.vStr "[1]") 5] = [("k", ⟨.vStr "[1]", 5⟩)] ∧
    recover [] (walBytes [Op.put "k" (.vStr "[1]") 5]) 9 =
      some [("k", ⟨.vArr [.vNum 1], 9⟩)] ∧
    (Rec.mk (.vStr "[1]") 5 ≠ Rec.mk (.vArr [.vNum 1]) 9) :=
  ⟨rfl, rfl, fun h => absurd (congrArg Rec.ts h) (by decide)⟩

end SageDB
